import Mathlib

/-!
# Verification of `multipy/rvalue.py` (FDR r-values, Heller–Bogomolov–Benjamini)

Shallow embedding of `src/multipy/rvalue.py` over exact rationals.
Numpy arrays become `List ℚ`; the numpy/scipy primitives the source calls
(`rankdata(method='max')`, `argsort`, `minimum.accumulate`, elementwise
`max`/`min`, `np.min`) are embedded by their documented elementwise
semantics.  The external scipy root finder is not part of this repository;
it is modelled abstractly (see `RootFinder`).
-/

namespace Multipy

/-- `scipy.stats.rankdata(e, method='max')`: the rank of an entry is the
maximum of the ranks that would be assigned to all tied values, which is
the number of entries `≤` it (1-based). -/
def rankdataMax (e : List ℚ) : List ℕ :=
  e.map (fun v => (e.filter (fun w => w ≤ v)).length)

/-- `np.argsort` on a rational vector: the list of indices `0..n-1`
sorted so that the corresponding values are ascending. -/
def argsort (v : List ℚ) : List ℕ :=
  (List.range v.length).mergeSort (fun i j => decide (v.getD i 0 ≤ v.getD j 0))

/-- `np.argsort` on an integer vector (used on the permutation `oe`). -/
def argsortN (v : List ℕ) : List ℕ :=
  (List.range v.length).mergeSort (fun i j => decide (v.getD i 0 ≤ v.getD j 0))

/-- Helper for `np.minimum.accumulate`: running minimum continued from `acc`. -/
def cumminAux (acc : ℚ) : List ℚ → List ℚ
  | [] => []
  | x :: xs => min acc x :: cumminAux (min acc x) xs

/-- `np.minimum.accumulate`: the running minimum of a vector. -/
def cummin : List ℚ → List ℚ
  | [] => []
  | x :: xs => x :: cumminAux x xs

/-- The denominator `1.-l00*(1.-c2*x)` of the weight `c1` in `_fdr_rvalue_f`. -/
def c1denom (c2 l00 x : ℚ) : ℚ := 1 - l00 * (1 - c2 * x)

/-- `c1 = (1.-c2) / (1.-l00*(1.-c2*x))` from `_fdr_rvalue_f`. -/
def c1val (c2 l00 x : ℚ) : ℚ := (1 - c2) / c1denom c2 l00 x

/-- `e = np.max([m*p1 / c1, R1*p2 / c2], axis=0)` with `R1 = len(p1)`:
the raw per-feature scores before rank normalisation. -/
def rawE (x : ℚ) (m : ℕ) (p1 p2 : List ℚ) (c2 l00 : ℚ) : List ℚ :=
  List.zipWith
    (fun a b => max ((m : ℚ) * a / c1val c2 l00 x) ((p1.length : ℚ) * b / c2))
    p1 p2

/-- `e = e / rankdata(e, method='max')`: elementwise division of the raw
scores by their max-tie ranks. -/
def rankNormed (x : ℚ) (m : ℕ) (p1 p2 : List ℚ) (c2 l00 : ℚ) : List ℚ :=
  List.zipWith (fun v (r : ℕ) => v / (r : ℚ))
    (rawE x m p1 p2 c2 l00) (rankdataMax (rawE x m p1 p2 c2 l00))

/-- The monotonize-and-clip tail of `_fdr_rvalue_f`:
`oe = np.argsort(e)[::-1]`, `oer = np.argsort(oe)`,
`r = np.minimum.accumulate(e[oe])[oer]`,
`r = np.min([r, np.ones(np.shape(r))], axis=0)`. -/
def monotonizeClip (e : List ℚ) : List ℚ :=
  ((argsortN ((argsort e).reverse)).map
    (fun j => (cummin (((argsort e).reverse).map (fun i => e.getD i 0))).getD j 0)).map
    (fun v => min v 1)

/-- `_fdr_rvalue_f(x, m, p1, p2, c2, l00)`: the statistic function. -/
def fdr_rvalue_f (x : ℚ) (m : ℕ) (p1 p2 : List ℚ) (c2 l00 : ℚ) : List ℚ :=
  monotonizeClip (rankNormed x m p1 p2 c2 l00)

/-- `_fdr_rvalue_f_aux(x, i, m, p1, p2, c2, l00)`: the residual
`_fdr_rvalue_f(x, ...)[i] - x` fed to the root finder. -/
def fdr_rvalue_f_aux (x : ℚ) (i : ℕ) (m : ℕ) (p1 p2 : List ℚ) (c2 l00 : ℚ) : ℚ :=
  (fdr_rvalue_f x m p1 p2 c2 l00).getD i 0 - x

/-- `np.min` over a vector (the source only applies it to nonempty data). -/
def listMin : List ℚ → ℚ
  | [] => 0
  | x :: xs => xs.foldl min x

/-- `tol = np.min([np.min([p1, p2]), 0.0001])` from `fdr_rvalue`. -/
def fdrTol (p1 p2 : List ℚ) : ℚ := min (listMin (p1 ++ p2)) (1 / 10000)

/-- Modelled from the spec: the general-purpose scalar root-finding
utility (`scipy.optimize.root`) is an external collaborator, not code of
this repository.  Per the spec it "must accept a residual function, an
initial guess, a numeric tolerance, and return a converged root"; it is
modelled as an abstract function of those three arguments. -/
def RootFinder : Type := (ℚ → ℚ) → ℚ → ℚ → ℚ

/-- `fdr_rvalue(p1, p2, m, c2, l00)`: computes `tol`, then for each
feature `i` either takes the boundary shortcut (`rvalue[i] = 1` when
`_fdr_rvalue_f_aux(1, i, ...) >= 0`) or calls the root finder with
initial guess `x0 = 0.5` and tolerance `tol`. -/
def fdr_rvalue (rf : RootFinder) (p1 p2 : List ℚ) (m : ℕ) (c2 l00 : ℚ) : List ℚ :=
  (List.range p2.length).map (fun i =>
    if 0 ≤ fdr_rvalue_f_aux 1 i m p1 p2 c2 l00 then 1
    else rf (fun x => fdr_rvalue_f_aux x i m p1 p2 c2 l00) (1 / 2) (fdrTol p1 p2))

/-- The input contract stated by the spec: equal-length nonempty p-value
vectors valued in `[0,1]`, `m ≥ n`, `c2 ∈ (0,1)`, `l00 ∈ [0,1)`. -/
def ValidInput (p1 p2 : List ℚ) (m : ℕ) (c2 l00 : ℚ) : Prop :=
  p1.length = p2.length ∧ p1 ≠ [] ∧
  (∀ q ∈ p1, 0 ≤ q ∧ q ≤ 1) ∧ (∀ q ∈ p2, 0 ≤ q ∧ q ≤ 1) ∧
  p1.length ≤ m ∧ 0 < c2 ∧ c2 < 1 ∧ 0 ≤ l00 ∧ l00 < 1

/-- The rank described by the spec's words: 1-based, every tied value
receiving the maximum rank of its tie group, i.e. the number of strictly
smaller entries plus the size of the tie group. -/
def specMaxRank (l : List ℚ) (v : ℚ) : ℕ :=
  (l.filter (fun w => w < v)).length + (l.filter (fun w => w = v)).length

/-! ## Basic facts about the sorting primitives -/

lemma argsort_perm (v : List ℚ) : (argsort v).Perm (List.range v.length) :=
  List.mergeSort_perm _ _

lemma argsortN_perm (v : List ℕ) : (argsortN v).Perm (List.range v.length) :=
  List.mergeSort_perm _ _

lemma argsort_length (v : List ℚ) : (argsort v).length = v.length := by
  simpa using (argsort_perm v).length_eq

lemma argsortN_length (v : List ℕ) : (argsortN v).length = v.length := by
  simpa using (argsortN_perm v).length_eq

lemma argsort_sorted (v : List ℚ) :
    (argsort v).Pairwise (fun i j => v.getD i 0 ≤ v.getD j 0) := by
  have h := @List.sorted_mergeSort ℕ
    (fun i j => decide (v.getD i 0 ≤ v.getD j 0))
    (fun a b c hab hbc => by
      simp only [decide_eq_true_eq] at hab hbc ⊢; exact le_trans hab hbc)
    (fun a b => by simpa using le_total (v.getD a 0) (v.getD b 0))
    (List.range v.length)
  exact h.imp (fun hab => by simpa using hab)

lemma argsortN_sorted (v : List ℕ) :
    (argsortN v).Pairwise (fun i j => v.getD i 0 ≤ v.getD j 0) := by
  have h := @List.sorted_mergeSort ℕ
    (fun i j => decide (v.getD i 0 ≤ v.getD j 0))
    (fun a b c hab hbc => by
      simp only [decide_eq_true_eq] at hab hbc ⊢; exact le_trans hab hbc)
    (fun a b => by simpa using Nat.le_total (v.getD a 0) (v.getD b 0))
    (List.range v.length)
  exact h.imp (fun hab => by simpa using hab)

/-- Positions of a duplicate-free list holding equal entries are equal. -/
lemma nodup_getD_inj (v : List ℕ) (hv : v.Nodup) {i j : ℕ}
    (hi : i < v.length) (hj : j < v.length)
    (h : v.getD i 0 = v.getD j 0) : i = j := by
  rw [List.getD_eq_getElem v 0 hi, List.getD_eq_getElem v 0 hj] at h
  exact (hv.getElem_inj_iff).1 h

/-- `np.argsort` of a permutation `v` of `0..n-1` maps sorted positions
back through `v` to the identity: `v[argsort(v)[k]] = k`. -/
lemma argsortN_getD_left (v : List ℕ) (hperm : v.Perm (List.range v.length)) :
    ∀ k, k < v.length → v.getD ((argsortN v).getD k 0) 0 = k := by
  set n := v.length with hn
  set w := argsortN v with hw
  have hwperm : w.Perm (List.range n) := argsortN_perm v
  have hwlen : w.length = n := argsortN_length v
  have hvnodup : v.Nodup := hperm.symm.nodup (List.nodup_range n)
  have hwnodup : w.Nodup := hwperm.symm.nodup (List.nodup_range n)
  have hwmem : ∀ a ∈ w, a < n := fun a ha => List.mem_range.1 (hwperm.mem_iff.1 ha)
  have hwstrict : w.Pairwise (fun i j => v.getD i 0 < v.getD j 0) := by
    refine ((argsortN_sorted v).and hwnodup).imp_of_mem ?_
    intro a b ha hb hab
    rcases hab with ⟨hle, hne⟩
    refine lt_of_le_of_ne hle (fun hEq => hne ?_)
    have ha' : a < v.length := hwmem a ha
    have hb' : b < v.length := hwmem b hb
    rw [List.getD_eq_getElem v 0 ha', List.getD_eq_getElem v 0 hb'] at hEq
    exact (hvnodup.getElem_inj_iff).1 hEq
  have hmapne : (List.range n).map (fun i => v.getD i 0) = v := by
    refine List.ext_getElem (by simpa using hn.symm) ?_
    intro k h1 h2
    simp only [List.getElem_map, List.getElem_range]
    exact List.getD_eq_getElem v 0 h2
  have hmap : w.map (fun i => v.getD i 0) = List.range n := by
    haveI : IsAntisymm ℕ (fun a b => a < b) :=
      ⟨fun a b h1 h2 => absurd h2 (Nat.lt_asymm h1)⟩
    exact List.eq_of_perm_of_sorted (r := fun a b => a < b)
      ((hwperm.map _).trans (by rw [hmapne]; exact hperm))
      (List.pairwise_map.2 hwstrict)
      (List.pairwise_lt_range n)
  intro k hk
  have hkw : k < w.length := by simpa [hwlen] using hk
  have hk' : k < (w.map (fun i => v.getD i 0)).length := by
    simpa [hwlen] using hk
  have hkr : k < (List.range n).length := by simpa using hk
  have h1 : (w.map (fun i => v.getD i 0)).getD k 0 = (List.range n).getD k 0 := by
    rw [hmap]
  rw [List.getD_eq_getElem _ 0 hk', List.getElem_map,
      List.getD_eq_getElem _ 0 hkr, List.getElem_range] at h1
  rw [List.getD_eq_getElem w 0 hkw]
  exact h1

/-- The companion direction: `argsort(v)[v[k]] = k` for a permutation `v`
of `0..n-1`. -/
lemma argsortN_getD_right (v : List ℕ) (hperm : v.Perm (List.range v.length)) :
    ∀ k, k < v.length → (argsortN v).getD (v.getD k 0) 0 = k := by
  intro k hk
  set n := v.length with hn
  set w := argsortN v with hw
  have hwperm : w.Perm (List.range n) := argsortN_perm v
  have hwlen : w.length = n := argsortN_length v
  have hvnodup : v.Nodup := hperm.symm.nodup (List.nodup_range n)
  have hvmem : ∀ a ∈ v, a < n := fun a ha => List.mem_range.1 (hperm.mem_iff.1 ha)
  have hj : v.getD k 0 < n := by
    rw [List.getD_eq_getElem v 0 hk]
    exact hvmem _ (List.getElem_mem hk)
  have hwj : w.getD (v.getD k 0) 0 < n := by
    have : w.getD (v.getD k 0) 0 ∈ w := by
      rw [List.getD_eq_getElem w 0 (by simpa [hwlen] using hj)]
      exact List.getElem_mem _
    exact List.mem_range.1 (hwperm.mem_iff.1 this)
  have h1 : v.getD (w.getD (v.getD k 0) 0) 0 = v.getD k 0 :=
    argsortN_getD_left v hperm _ hj
  exact nodup_getD_inj v hvnodup (by simpa using hwj) hk h1

/-! ## The running minimum collapses on a descending vector -/

lemma cumminAux_eq_self (acc : ℚ) (s : List ℚ)
    (hs : s.Pairwise (fun a b => b ≤ a)) (hacc : ∀ y ∈ s, y ≤ acc) :
    cumminAux acc s = s := by
  induction s generalizing acc with
  | nil => rfl
  | cons x xs ih =>
    have hx : x ≤ acc := hacc x (by simp)
    have hxs : ∀ y ∈ xs, y ≤ x := fun y hy => (List.pairwise_cons.1 hs).1 y hy
    simp only [cumminAux, min_eq_right hx]
    rw [ih x (List.pairwise_cons.1 hs).2 hxs]

lemma cummin_eq_self (s : List ℚ) (hs : s.Pairwise (fun a b => b ≤ a)) :
    cummin s = s := by
  cases s with
  | nil => rfl
  | cons x xs =>
    simp only [cummin]
    rw [cumminAux_eq_self x xs (List.pairwise_cons.1 hs).2
      (fun y hy => (List.pairwise_cons.1 hs).1 y hy)]

/-- The descending index order used by `_fdr_rvalue_f` is a permutation
of `0..n-1`. -/
lemma oe_perm (e : List ℚ) :
    ((argsort e).reverse).Perm (List.range e.length) :=
  (List.reverse_perm (argsort e)).trans (argsort_perm e)

lemma oe_length (e : List ℚ) : ((argsort e).reverse).length = e.length := by
  simp [argsort_length]

/-- The entries of `e` read along `oe = argsort(e)[::-1]` are descending. -/
lemma eoe_sorted (e : List ℚ) :
    (((argsort e).reverse).map (fun i => e.getD i 0)).Pairwise
      (fun a b => b ≤ a) := by
  rw [List.pairwise_map, List.pairwise_reverse]
  exact argsort_sorted e

/-- Because `e[oe]` is already descending, the running minimum is the
identity on it and indexing back through `oer` recovers `e`; the
monotonize-and-clip tail therefore equals an elementwise clip to 1. -/
lemma monotonizeClip_eq (e : List ℚ) :
    monotonizeClip e = e.map (fun v => min v 1) := by
  unfold monotonizeClip
  have hperm : ((argsort e).reverse).Perm (List.range ((argsort e).reverse).length) := by
    rw [oe_length]; exact oe_perm e
  have hc : cummin (((argsort e).reverse).map (fun i => e.getD i 0))
      = ((argsort e).reverse).map (fun i => e.getD i 0) :=
    cummin_eq_self _ (eoe_sorted e)
  rw [hc]
  refine List.ext_getElem ?_ ?_
  · simp [argsortN_length, argsort_length]
  · intro k h1 h2
    have hk : k < e.length := by simpa using h2
    have hkw : k < (argsortN ((argsort e).reverse)).length := by
      simpa [argsortN_length, argsort_length] using hk
    simp only [List.getElem_map]
    have hjmem : (argsortN ((argsort e).reverse))[k] < e.length := by
      have hmem : (argsortN ((argsort e).reverse))[k]
          ∈ argsortN ((argsort e).reverse) := List.getElem_mem hkw
      have h3 := ((argsortN_perm _).mem_iff).1 hmem
      rw [oe_length] at h3
      exact List.mem_range.1 h3
    have hjoe : (argsortN ((argsort e).reverse))[k] <
        ((argsort e).reverse).length := by
      rw [oe_length]; exact hjmem
    have hjm : (argsortN ((argsort e).reverse))[k] <
        (((argsort e).reverse).map (fun i => e.getD i 0)).length := by
      rw [List.length_map]; exact hjoe
    rw [List.getD_eq_getElem _ 0 hjm, List.getElem_map]
    have hidx := argsortN_getD_left ((argsort e).reverse) hperm k
      (by rw [oe_length]; exact hk)
    rw [List.getD_eq_getElem _ 0 hkw, List.getD_eq_getElem _ 0 hjoe] at hidx
    rw [hidx, List.getD_eq_getElem e 0 hk]

/-! ## Lengths and bounds of the statistic pipeline -/

lemma rawE_length (x : ℚ) (m : ℕ) (p1 p2 : List ℚ) (c2 l00 : ℚ) :
    (rawE x m p1 p2 c2 l00).length = min p1.length p2.length := by
  simp [rawE]

lemma rankdataMax_length (e : List ℚ) : (rankdataMax e).length = e.length := by
  simp [rankdataMax]

lemma rankNormed_length (x : ℚ) (m : ℕ) (p1 p2 : List ℚ) (c2 l00 : ℚ) :
    (rankNormed x m p1 p2 c2 l00).length = min p1.length p2.length := by
  rw [rankNormed, List.length_zipWith, rankdataMax_length, rawE_length]
  simp

lemma fdr_rvalue_f_length (x : ℚ) (m : ℕ) (p1 p2 : List ℚ) (c2 l00 : ℚ) :
    (fdr_rvalue_f x m p1 p2 c2 l00).length = min p1.length p2.length := by
  rw [fdr_rvalue_f, monotonizeClip_eq, List.length_map, rankNormed_length]

/-- Every raw score is nonnegative: the follow-up arm `R1*p2[i]/c2` of the
`max` already is, for nonnegative `p2` and positive `c2` — at every
threshold `x`, even outside `[0,1]`. -/
lemma rawE_nonneg (x : ℚ) (m : ℕ) (p1 p2 : List ℚ) (c2 l00 : ℚ)
    (hc2 : 0 < c2) (hp2 : ∀ q ∈ p2, 0 ≤ q) :
    ∀ i (h : i < (rawE x m p1 p2 c2 l00).length),
      0 ≤ (rawE x m p1 p2 c2 l00)[i] := by
  intro i h
  have h2 : i < p2.length := by
    rw [rawE_length] at h; exact lt_of_lt_of_le h (min_le_right _ _)
  simp only [rawE, List.getElem_zipWith]
  refine le_trans ?_ (le_max_right _ _)
  have hp : 0 ≤ p2[i] := hp2 _ (List.getElem_mem h2)
  exact div_nonneg (mul_nonneg (Nat.cast_nonneg _) hp) hc2.le

/-- Every rank-normalised score is nonnegative. -/
lemma rankNormed_nonneg (x : ℚ) (m : ℕ) (p1 p2 : List ℚ) (c2 l00 : ℚ)
    (hc2 : 0 < c2) (hp2 : ∀ q ∈ p2, 0 ≤ q) :
    ∀ i (h : i < (rankNormed x m p1 p2 c2 l00).length),
      0 ≤ (rankNormed x m p1 p2 c2 l00)[i] := by
  intro i h
  have hraw : i < (rawE x m p1 p2 c2 l00).length := by
    rw [rawE_length]; rw [rankNormed_length] at h; exact h
  simp only [rankNormed, List.getElem_zipWith]
  refine div_nonneg (rawE_nonneg x m p1 p2 c2 l00 hc2 hp2 i ?_) ?_
  · rw [rawE_length]; rw [rawE_length] at hraw; exact hraw
  · exact Nat.cast_nonneg _

/-- Every entry of the statistic function's output lies in `[0,1]`, at
every threshold `x` (the source clips to at most 1, and the scores it
clips are nonnegative). -/
lemma fdr_rvalue_f_bounds (x : ℚ) (m : ℕ) (p1 p2 : List ℚ) (c2 l00 : ℚ)
    (hc2 : 0 < c2) (hp2 : ∀ q ∈ p2, 0 ≤ q) :
    ∀ i (h : i < (fdr_rvalue_f x m p1 p2 c2 l00).length),
      0 ≤ (fdr_rvalue_f x m p1 p2 c2 l00)[i] ∧
        (fdr_rvalue_f x m p1 p2 c2 l00)[i] ≤ 1 := by
  intro i h
  have h' : i < (rankNormed x m p1 p2 c2 l00).length := by
    rw [rankNormed_length]
    rw [fdr_rvalue_f_length] at h
    exact h
  have hE : 0 ≤ (rankNormed x m p1 p2 c2 l00)[i] :=
    rankNormed_nonneg x m p1 p2 c2 l00 hc2 hp2 i h'
  constructor
  · simp only [fdr_rvalue_f, monotonizeClip_eq, List.getElem_map]
    exact le_min hE (by norm_num)
  · simp only [fdr_rvalue_f, monotonizeClip_eq, List.getElem_map]
    exact min_le_right _ _

/-- Counting entries `≤ v` splits into the strictly smaller ones and the
tie group of `v`, which is exactly the spec's maximum-tie rank. -/
lemma filter_le_length_eq_specMaxRank (l : List ℚ) (v : ℚ) :
    (l.filter (fun w => w ≤ v)).length = specMaxRank l v := by
  unfold specMaxRank
  induction l with
  | nil => simp
  | cons a as ih =>
    rcases lt_trichotomy a v with h1 | h2 | h3
    · simp only [List.filter_cons, decide_eq_true_eq, h1.le, if_true, h1,
        h1.ne, if_false, List.length_cons]
      omega
    · subst h2
      simp only [List.filter_cons, decide_eq_true_eq, le_refl, if_true,
        lt_irrefl, if_false, List.length_cons]
      omega
    · have hna : ¬ a ≤ v := not_le.2 h3
      simp only [List.filter_cons, decide_eq_true_eq, hna, if_false,
        not_lt_of_gt h3, h3.ne.symm]
      omega

/-! ## The solver loop, elementwise -/

lemma fdr_rvalue_length (rf : RootFinder) (p1 p2 : List ℚ) (m : ℕ)
    (c2 l00 : ℚ) :
    (fdr_rvalue rf p1 p2 m c2 l00).length = p2.length := by
  simp [fdr_rvalue]

lemma fdr_rvalue_getD (rf : RootFinder) (p1 p2 : List ℚ) (m : ℕ)
    (c2 l00 : ℚ) (i : ℕ) (h : i < p2.length) :
    (fdr_rvalue rf p1 p2 m c2 l00).getD i 0 =
      if 0 ≤ fdr_rvalue_f_aux 1 i m p1 p2 c2 l00 then 1
      else rf (fun x => fdr_rvalue_f_aux x i m p1 p2 c2 l00) (1 / 2)
        (fdrTol p1 p2) := by
  rw [fdr_rvalue]
  have hr : i < ((List.range p2.length).map (fun i =>
      if 0 ≤ fdr_rvalue_f_aux 1 i m p1 p2 c2 l00 then 1
      else rf (fun x => fdr_rvalue_f_aux x i m p1 p2 c2 l00) (1 / 2)
        (fdrTol p1 p2))).length := by
    simpa using h
  rw [List.getD_eq_getElem _ 0 hr, List.getElem_map, List.getElem_range]

/-! ## The global minimum used for the tolerance -/

lemma foldl_min_le_init (l : List ℚ) : ∀ a : ℚ, l.foldl min a ≤ a := by
  induction l with
  | nil => simp
  | cons x xs ih => intro a; exact le_trans (ih (min a x)) (min_le_left a x)

lemma foldl_min_le_mem (l : List ℚ) :
    ∀ (a q : ℚ), q ∈ l → l.foldl min a ≤ q := by
  induction l with
  | nil => simp
  | cons x xs ih =>
    intro a q hq
    rcases List.mem_cons.1 hq with h | h
    · subst h
      exact le_trans (foldl_min_le_init xs (min a q)) (min_le_right a q)
    · exact ih (min a x) q h

/-- `np.min` really is a lower bound on the entries. -/
lemma listMin_le (l : List ℚ) : ∀ q ∈ l, listMin l ≤ q := by
  intro q hq
  cases l with
  | nil => cases hq
  | cons x xs =>
    rcases List.mem_cons.1 hq with h | h
    · subst h; exact foldl_min_le_init xs q
    · exact foldl_min_le_mem xs x q h

/-! ## Claim theorems -/

/-- C6: for every `x ∈ [0,1]`, `c2 ∈ (0,1)` and `l00 ∈ [0,1)`, the
denominator `1 - l00*(1 - c2*x)` of the weight `c1` is strictly
positive, so the division defining `c1` is well-defined. -/
theorem C6_c1_denominator_pos (x c2 l00 : ℚ)
    (hx0 : 0 ≤ x) (hx1 : x ≤ 1) (hc20 : 0 < c2) (hc21 : c2 < 1)
    (hl0 : 0 ≤ l00) (hl1 : l00 < 1) : 0 < c1denom c2 l00 x := by
  unfold c1denom
  have h1 : 0 ≤ c2 * x := mul_nonneg hc20.le hx0
  have h2 : c2 * x ≤ c2 := by nlinarith
  have h3 : l00 * (1 - c2 * x) ≤ l00 * 1 :=
    mul_le_mul_of_nonneg_left (by linarith) hl0
  linarith

theorem C6_witness : 0 ≤ (1:ℚ)/2 ∧ 0 < c1denom (1/2) (4/5) (1/2) :=
  ⟨by norm_num,
    C6_c1_denominator_pos (1/2) (1/2) (4/5) (by norm_num) (by norm_num)
      (by norm_num) (by norm_num) (by norm_num) (by norm_num)⟩

/-- C3: the statistic function first computes, with `R1 = n = len(p1)`
and `c1 = (1-c2)/(1 - l00*(1-c2*x))`, the raw score
`raw[i] = max(m*p1[i]/c1, R1*p2[i]/c2)`, and then divides each `raw[i]`
by its 1-based rank where tied values all receive the maximum rank of
their tie group. -/
theorem C3_raw_and_max_tie_rank (x : ℚ) (m : ℕ) (p1 p2 : List ℚ)
    (c2 l00 : ℚ) (i : ℕ) (h : i < (rankNormed x m p1 p2 c2 l00).length) :
    (rankNormed x m p1 p2 c2 l00).getD i 0 =
      (rawE x m p1 p2 c2 l00).getD i 0 /
        (specMaxRank (rawE x m p1 p2 c2 l00)
          ((rawE x m p1 p2 c2 l00).getD i 0) : ℚ) ∧
    (rawE x m p1 p2 c2 l00).getD i 0 =
      max ((m : ℚ) * p1.getD i 0 / ((1 - c2) / (1 - l00 * (1 - c2 * x))))
        ((p1.length : ℚ) * p2.getD i 0 / c2) := by
  have hlen := rankNormed_length x m p1 p2 c2 l00
  have h1 : i < p1.length := lt_of_lt_of_le (hlen ▸ h) (min_le_left _ _)
  have h2 : i < p2.length := lt_of_lt_of_le (hlen ▸ h) (min_le_right _ _)
  have hraw : i < (rawE x m p1 p2 c2 l00).length := by
    rw [rawE_length]; rw [hlen] at h; exact h
  have hrank : i < (rankdataMax (rawE x m p1 p2 c2 l00)).length := by
    rw [rankdataMax_length]; exact hraw
  constructor
  · rw [List.getD_eq_getElem _ 0 h, List.getD_eq_getElem _ 0 hraw]
    simp only [rankNormed, List.getElem_zipWith]
    congr 1
    norm_cast
    rw [← filter_le_length_eq_specMaxRank]
    simp only [rankdataMax, List.getElem_map]
  · rw [List.getD_eq_getElem _ 0 hraw, List.getD_eq_getElem _ 0 h1,
      List.getD_eq_getElem _ 0 h2]
    simp only [rawE, List.getElem_zipWith, c1val, c1denom]

theorem C7_statistic_entries_in_unit_interval (x : ℚ) (m : ℕ)
    (p1 p2 : List ℚ) (c2 l00 : ℚ)
    (hx0 : 0 ≤ x) (hx1 : x ≤ 1) (hv : ValidInput p1 p2 m c2 l00) :
    ∀ i, i < (fdr_rvalue_f x m p1 p2 c2 l00).length →
      0 ≤ (fdr_rvalue_f x m p1 p2 c2 l00).getD i 0 ∧
      (fdr_rvalue_f x m p1 p2 c2 l00).getD i 0 ≤ 1 := by
  intro i h
  rw [List.getD_eq_getElem _ 0 h]
  exact fdr_rvalue_f_bounds x m p1 p2 c2 l00 hv.2.2.2.2.2.1
    (fun q hq => (hv.2.2.2.1 q hq).1) i h

theorem C7_witness :
    (0 ≤ (1:ℚ)/2 ∧ ValidInput [1/5] [1/5] 1 (1/2) (4/5)) ∧
    (0 ≤ (fdr_rvalue_f (1/2) 1 [1/5] [1/5] (1/2) (4/5)).getD 0 0 ∧
      (fdr_rvalue_f (1/2) 1 [1/5] [1/5] (1/2) (4/5)).getD 0 0 ≤ 1) :=
  ⟨⟨by norm_num, by
      refine ⟨rfl, by simp, ?_, ?_, by simp, by norm_num, by norm_num,
        by norm_num, by norm_num⟩ <;>
        · intro q hq; simp only [List.mem_singleton] at hq; subst hq; norm_num⟩,
    C7_statistic_entries_in_unit_interval (1/2) 1 [1/5] [1/5] (1/2) (4/5)
      (by norm_num) (by norm_num)
      (by
        refine ⟨rfl, by simp, ?_, ?_, by simp, by norm_num, by norm_num,
          by norm_num, by norm_num⟩ <;>
          · intro q hq; simp only [List.mem_singleton] at hq; subst hq; norm_num)
      0 (by rw [fdr_rvalue_f_length]; norm_num)⟩

/-- C10: the monotonize-and-clip stage never increases an entry: at every
feature index and every threshold `x`, the statistic function's output is
at most the rank-normalised value computed before monotonization. -/
theorem C10_monotonize_never_increases (x : ℚ) (m : ℕ) (p1 p2 : List ℚ)
    (c2 l00 : ℚ) :
    ∀ i, i < (fdr_rvalue_f x m p1 p2 c2 l00).length →
      (fdr_rvalue_f x m p1 p2 c2 l00).getD i 0 ≤
        (rankNormed x m p1 p2 c2 l00).getD i 0 := by
  intro i h
  have he : i < (rankNormed x m p1 p2 c2 l00).length := by
    rw [rankNormed_length]; rw [fdr_rvalue_f_length] at h; exact h
  rw [List.getD_eq_getElem _ 0 h, List.getD_eq_getElem _ 0 he]
  simp only [fdr_rvalue_f, monotonizeClip_eq, List.getElem_map]
  exact min_le_left _ _

theorem C10_witness :
    0 < (fdr_rvalue_f (1/2) 1 [1/5] [1/5] (1/2) (4/5)).length ∧
    (fdr_rvalue_f (1/2) 1 [1/5] [1/5] (1/2) (4/5)).getD 0 0 ≤
      (rankNormed (1/2) 1 [1/5] [1/5] (1/2) (4/5)).getD 0 0 :=
  ⟨by rw [fdr_rvalue_f_length]; norm_num,
    C10_monotonize_never_increases (1/2) 1 [1/5] [1/5] (1/2) (4/5) 0
      (by rw [fdr_rvalue_f_length]; norm_num)⟩

/-- C4: reading the statistic function's output in the order given by
sorting the rank-normalised values descending (`oe = argsort(e)[::-1]`),
the entries form a non-increasing sequence (step-down property). -/
theorem C4_step_down_monotone (x : ℚ) (m : ℕ) (p1 p2 : List ℚ)
    (c2 l00 : ℚ) :
    (((argsort (rankNormed x m p1 p2 c2 l00)).reverse).map
      (fun i => (fdr_rvalue_f x m p1 p2 c2 l00).getD i 0)).Pairwise
      (fun a b => b ≤ a) := by
  have hout : ∀ i, (fdr_rvalue_f x m p1 p2 c2 l00).getD i 0
      = min ((rankNormed x m p1 p2 c2 l00).getD i 0) 1 := by
    intro i
    rw [fdr_rvalue_f, monotonizeClip_eq]
    have h0 := List.getD_map (rankNormed x m p1 p2 c2 l00) 0
      (n := i) (fun v => min v 1)
    simpa using h0
  rw [List.pairwise_map]
  have h := List.pairwise_map.1 (eoe_sorted (rankNormed x m p1 p2 c2 l00))
  refine h.imp ?_
  intro a b hba
  rw [hout a, hout b]
  exact min_le_min hba le_rfl

theorem C3_witness :
    0 < (rankNormed 1 1 [1/5] [1/5] (1/2) (4/5)).length ∧
    ((rankNormed 1 1 [1/5] [1/5] (1/2) (4/5)).getD 0 0 =
      (rawE 1 1 [1/5] [1/5] (1/2) (4/5)).getD 0 0 /
        (specMaxRank (rawE 1 1 [1/5] [1/5] (1/2) (4/5))
          ((rawE 1 1 [1/5] [1/5] (1/2) (4/5)).getD 0 0) : ℚ) ∧
    (rawE 1 1 [1/5] [1/5] (1/2) (4/5)).getD 0 0 =
      max ((1 : ℚ) * ([(1:ℚ)/5].getD 0 0) /
          ((1 - 1/2) / (1 - (4/5) * (1 - (1/2) * 1))))
        ((([(1:ℚ)/5].length : ℕ) : ℚ) * ([(1:ℚ)/5].getD 0 0) / (1/2))) :=
  ⟨by rw [rankNormed_length]; norm_num,
    C3_raw_and_max_tie_rank 1 1 [1/5] [1/5] (1/2) (4/5) 0
      (by rw [rankNormed_length]; norm_num)⟩

/-- C2: for every feature `i`, `fdr_rvalue` first evaluates the residual
`g(1,i)`; if `g(1,i) ≥ 0` it sets `rvalue[i] = 1` without invoking the
root finder, and otherwise sets `rvalue[i]` to the root finder's result
on `g(·,i)` with initial guess `x0 = 0.5` and tolerance `tol`. -/
theorem C2_shortcut_or_root_search (rf : RootFinder) (p1 p2 : List ℚ)
    (m : ℕ) (c2 l00 : ℚ) (i : ℕ) (h : i < p2.length) :
    (fdr_rvalue rf p1 p2 m c2 l00).getD i 0 =
      if 0 ≤ fdr_rvalue_f_aux 1 i m p1 p2 c2 l00 then 1
      else rf (fun x => fdr_rvalue_f_aux x i m p1 p2 c2 l00) (1 / 2)
        (fdrTol p1 p2) :=
  fdr_rvalue_getD rf p1 p2 m c2 l00 i h

theorem C2_witness :
    (fdr_rvalue (fun _ _ _ => (2:ℚ)/5) [1/5] [1/5] 1 (1/2) (4/5)).getD 0 0 =
      if 0 ≤ fdr_rvalue_f_aux 1 0 1 [1/5] [1/5] (1/2) (4/5) then 1
      else (2:ℚ)/5 :=
  C2_shortcut_or_root_search (fun _ _ _ => (2:ℚ)/5) [1/5] [1/5] 1 (1/2) (4/5)
    0 (by norm_num)

/-- C5: the tolerance is a single scalar `min(min(p1 ∪ p2), 1e-4)`:
it bounds every entry of `p1` and `p2`, is never looser than `1e-4`, and
the very same scalar is the tolerance argument of every feature's root
search. -/
theorem C5_shared_global_tolerance (rf : RootFinder) (p1 p2 : List ℚ)
    (m : ℕ) (c2 l00 : ℚ) :
    (∀ q ∈ p1 ++ p2, fdrTol p1 p2 ≤ q) ∧ fdrTol p1 p2 ≤ 1 / 10000 ∧
    ∀ i, i < p2.length → ¬ (0 ≤ fdr_rvalue_f_aux 1 i m p1 p2 c2 l00) →
      (fdr_rvalue rf p1 p2 m c2 l00).getD i 0 =
        rf (fun x => fdr_rvalue_f_aux x i m p1 p2 c2 l00) (1 / 2)
          (min (listMin (p1 ++ p2)) (1 / 10000)) := by
  refine ⟨?_, ?_, ?_⟩
  · intro q hq
    exact le_trans (min_le_left _ _) (listMin_le (p1 ++ p2) q hq)
  · exact min_le_right _ _
  · intro i h hneg
    rw [fdr_rvalue_getD rf p1 p2 m c2 l00 i h, if_neg hneg]
    rfl

theorem C5_witness :
    ((∀ q ∈ ([1/5] : List ℚ) ++ [1/5], fdrTol [1/5] [1/5] ≤ q) ∧
      fdrTol [1/5] [1/5] ≤ 1 / 10000) ∧
    (fdr_rvalue (fun _ _ _ => (2:ℚ)/5) [1/5] [1/5] 1 (1/2) (4/5)).getD 0 0 =
      (2:ℚ)/5 := by
  have h := C5_shared_global_tolerance (fun _ _ _ => (2:ℚ)/5) [1/5] [1/5] 1
    (1/2) (4/5)
  refine ⟨⟨h.1, h.2.1⟩, ?_⟩
  have hx := h.2.2 0 (by norm_num) ?_
  · exact hx
  · simp [fdr_rvalue_f_aux, fdr_rvalue_f, monotonizeClip, rankNormed,
      rawE, rankdataMax, argsort, argsortN, cummin, cumminAux, c1val, c1denom,
      List.range_succ]
    norm_num

/-- C1: for every valid input and a root finder that returns exact roots,
the vector returned by `fdr_rvalue` has the same length as `p1` and `p2`
and every entry lies in `[0,1]`. -/
theorem C1_output_length_and_unit_interval (rf : RootFinder)
    (p1 p2 : List ℚ) (m : ℕ) (c2 l00 : ℚ)
    (hv : ValidInput p1 p2 m c2 l00)
    (hrf : ∀ i, i < p2.length →
      ¬ (0 ≤ fdr_rvalue_f_aux 1 i m p1 p2 c2 l00) →
      fdr_rvalue_f_aux
        (rf (fun x => fdr_rvalue_f_aux x i m p1 p2 c2 l00) (1 / 2)
          (fdrTol p1 p2)) i m p1 p2 c2 l00 = 0) :
    (fdr_rvalue rf p1 p2 m c2 l00).length = p1.length ∧
    (fdr_rvalue rf p1 p2 m c2 l00).length = p2.length ∧
    ∀ i, i < (fdr_rvalue rf p1 p2 m c2 l00).length →
      0 ≤ (fdr_rvalue rf p1 p2 m c2 l00).getD i 0 ∧
      (fdr_rvalue rf p1 p2 m c2 l00).getD i 0 ≤ 1 := by
  have hL := fdr_rvalue_length rf p1 p2 m c2 l00
  obtain ⟨hlen, hne, hp1, hp2, hm, hc20, hc21, hl0, hl1⟩ := hv
  refine ⟨by rw [hL, hlen], hL, ?_⟩
  intro i h
  rw [hL] at h
  rw [fdr_rvalue_getD rf p1 p2 m c2 l00 i h]
  by_cases hcond : 0 ≤ fdr_rvalue_f_aux 1 i m p1 p2 c2 l00
  · rw [if_pos hcond]; norm_num
  · rw [if_neg hcond]
    have hzero := hrf i h hcond
    rw [fdr_rvalue_f_aux, sub_eq_zero] at hzero
    have hif : i < (fdr_rvalue_f
        (rf (fun x => fdr_rvalue_f_aux x i m p1 p2 c2 l00) (1 / 2)
          (fdrTol p1 p2)) m p1 p2 c2 l00).length := by
      rw [fdr_rvalue_f_length, hlen, min_self]; exact h
    have hb := fdr_rvalue_f_bounds
      (rf (fun x => fdr_rvalue_f_aux x i m p1 p2 c2 l00) (1 / 2)
        (fdrTol p1 p2)) m p1 p2 c2 l00 hc20
      (fun q hq => (hp2 q hq).1) i hif
    rw [List.getD_eq_getElem _ 0 hif] at hzero
    constructor
    · exact le_of_le_of_eq hb.1 hzero
    · exact le_of_eq_of_le hzero.symm hb.2

theorem C1_witness :
    ((fdr_rvalue (fun _ _ _ => (2:ℚ)/5) [1/5] [1/5] 1 (1/2) (4/5)).length
        = ([1/5] : List ℚ).length ∧
      (fdr_rvalue (fun _ _ _ => (2:ℚ)/5) [1/5] [1/5] 1 (1/2) (4/5)).length
        = ([1/5] : List ℚ).length ∧
      ∀ i, i < (fdr_rvalue (fun _ _ _ => (2:ℚ)/5) [1/5] [1/5] 1 (1/2)
          (4/5)).length →
        0 ≤ (fdr_rvalue (fun _ _ _ => (2:ℚ)/5) [1/5] [1/5] 1 (1/2)
          (4/5)).getD i 0 ∧
        (fdr_rvalue (fun _ _ _ => (2:ℚ)/5) [1/5] [1/5] 1 (1/2)
          (4/5)).getD i 0 ≤ 1) :=
  C1_output_length_and_unit_interval (fun _ _ _ => (2:ℚ)/5) [1/5] [1/5] 1
    (1/2) (4/5)
    (by
      refine ⟨rfl, by simp, ?_, ?_, by simp, by norm_num, by norm_num,
        by norm_num, by norm_num⟩ <;>
        · intro q hq; simp only [List.mem_singleton] at hq; subst hq; norm_num)
    (by
      intro i hi hneg
      have hi0 : i = 0 := Nat.lt_one_iff.1 (by simpa using hi)
      subst hi0
      simp [fdr_rvalue_f_aux, fdr_rvalue_f, monotonizeClip, rankNormed,
        rawE, rankdataMax, argsort, argsortN, cummin, cumminAux, c1val,
        c1denom, List.range_succ]
      norm_num)

/-- C8: `fdr_rvalue` is deterministic: two calls with identical inputs
(and the same deterministic root-finding collaborator) return identical
output vectors — the embedding has no hidden randomness or state. -/
theorem C8_deterministic (rf rf' : RootFinder) (p1 p1' p2 p2' : List ℚ)
    (m m' : ℕ) (c2 c2' l00 l00' : ℚ)
    (h1 : rf = rf') (h2 : p1 = p1') (h3 : p2 = p2') (h4 : m = m')
    (h5 : c2 = c2') (h6 : l00 = l00') :
    fdr_rvalue rf p1 p2 m c2 l00 = fdr_rvalue rf' p1' p2' m' c2' l00' := by
  subst h1; subst h2; subst h3; subst h4; subst h5; subst h6; rfl

theorem C8_witness :
    fdr_rvalue (fun _ _ _ => (2:ℚ)/5) [1/5] [1/5] 1 (1/2) (4/5) =
      fdr_rvalue (fun _ _ _ => (2:ℚ)/5) [1/5] [1/5] 1 (1/2) (4/5) :=
  C8_deterministic (fun _ _ _ => (2:ℚ)/5) (fun _ _ _ => (2:ℚ)/5)
    [1/5] [1/5] [1/5] [1/5] 1 1 (1/2) (1/2) (4/5) (4/5)
    rfl rfl rfl rfl rfl rfl

end Multipy
